import Mathlib

set_option maxHeartbeats 1000000

/- Verification of the chunking / ingestion / search pipeline of the
`database` repository (src/pdf_processor.py, src/search_engine.py).

Python strings are modelled as lists of characters (`PyStr`), so that
`str.split()`, `' '.join(...)` and `str.strip()` become structurally
recursive list functions that can be reasoned about by induction. -/

abbrev PyStr := List Char

/-- Whitespace test used by Python `str.split()` / `str.strip()`. -/
def isWS (c : Char) : Bool := c.isWhitespace

/-- Worker for `pySplit`; `acc` holds the characters of the current word,
reversed. -/
def pySplitAux : PyStr → PyStr → List PyStr
  | [], acc => if acc.isEmpty then [] else [acc.reverse]
  | c :: cs, acc =>
    if isWS c then
      (if acc.isEmpty then pySplitAux cs [] else acc.reverse :: pySplitAux cs [])
    else pySplitAux cs (c :: acc)

/-- Model of Python `text.split()`: split on runs of whitespace, dropping
empty pieces. -/
def pySplit (s : PyStr) : List PyStr := pySplitAux s []

/-- Model of Python `' '.join(words)`. -/
def sjoin : List PyStr → PyStr
  | [] => []
  | [w] => w
  | w :: x :: rest => w ++ ' ' :: sjoin (x :: rest)

/-- Model of Python `not text or not text.strip()`: true iff the string is
empty or consists only of whitespace. -/
def isBlank (s : PyStr) : Bool := s.all isWS

/-- The loop body of `PDFProcessor._chunk_text` (src/pdf_processor.py).
`cur` is `current_chunk` (the words of the chunk being built, in order) and
`size` is `current_size`.  The Python code appends `' '.join(current_chunk)`
to `chunks` at each emission point; here the word list `cur` is emitted and
`chunkText` applies `sjoin` (the model of `' '.join`) to each emitted list. -/
def chunkLoopW (n : Nat) : List PyStr → List PyStr → Nat → List (List PyStr)
  | [], cur, _ => if cur.isEmpty then [] else [cur]
  | w :: ws, cur, size =>
    if n < size + w.length + 1 then
      (if cur.isEmpty then [] else [cur]) ++ chunkLoopW n ws [w] w.length
    else chunkLoopW n ws (cur ++ [w]) (size + w.length + 1)

/-- Model of `PDFProcessor._chunk_text(text, chunk_size)`: split the text into
words and greedily pack them into chunks, starting a new chunk whenever the
running size counter `current_size += len(word) + 1` exceeds `chunk_size`.
The repository calls it with the default `chunk_size = 5000`. -/
def chunkText (text : PyStr) (n : Nat) : List PyStr :=
  (chunkLoopW n (pySplit text) [] 0).map sjoin

/-- Character length of `sjoin L`, computed recursively on the word list. -/
def joinLen : List PyStr → Nat
  | [] => 0
  | [w] => w.length
  | w :: x :: rest => w.length + 1 + joinLen (x :: rest)

/-- One stored record (`properties` dict built in `PDFProcessor.process_pdf`):
`{content, page_number, file_name, chunk_number}`. -/
structure SegmentRecord where
  content : PyStr
  page_number : Nat
  file_name : PyStr
  chunk_number : Nat
deriving DecidableEq

/-- What happens when `process_pdf` handles one page of the file:
`extract_text()` returns a string, or page processing raises an ordinary
`Exception`, or a `KeyboardInterrupt` fires while the page is handled. -/
inductive PageAct where
  | text (t : PyStr)
  | raiseExc
  | raiseKI
deriving DecidableEq

/-- Records emitted for the chunk list of one page, mirroring
`for chunk_num, chunk in enumerate(chunks)` with the blank-chunk `continue`;
`cn` is the running 0-based `chunk_num`, `pn` the 0-based `page_num`. -/
def pageRecsAux (fname : PyStr) (pn : Nat) : List PyStr → Nat → List SegmentRecord
  | [], _ => []
  | c :: rest, cn =>
    if isBlank c then pageRecsAux fname pn rest (cn + 1)
    else ⟨c, pn + 1, fname, cn + 1⟩ :: pageRecsAux fname pn rest (cn + 1)

/-- Records produced by one page of `process_pdf`: a blank page is skipped
(`if not text or not text.strip(): continue`), otherwise its chunks are
enumerated.  `pn` is the 0-based page index, `cs` the chunk size. -/
def pageRecords (fname : PyStr) (pn : Nat) (t : PyStr) (cs : Nat) : List SegmentRecord :=
  if isBlank t then [] else pageRecsAux fname pn (chunkText t cs) 0

/-- Records produced by all pages of a file in order, `pn` the index of the
first page. -/
def processRecsAux (fname : PyStr) (cs : Nat) : List PyStr → Nat → List SegmentRecord
  | [], _ => []
  | t :: rest, pn => pageRecords fname pn t cs ++ processRecsAux fname cs rest (pn + 1)

/-- The full sequence of segment records `process_pdf` builds for a file whose
pages extract to `texts`. -/
def processRecords (fname : PyStr) (texts : List PyStr) (cs : Nat) : List SegmentRecord :=
  processRecsAux fname cs texts 0

/-- The chunk loop of `process_pdf`, with batching.  State: `batch` is the
pending list, `flushed` the batches committed so far, `att` the outcomes of
the `_process_batch` attempts so far (`flushOk k` tells whether attempt `k`
succeeds).  A failed attempt raises, which aborts the rest of the page's
chunks; the pending list is NOT cleared in that case (`batch = []` only runs
after `_process_batch` returns). -/
def runChunks (bs : Nat) (fname : PyStr) (pn : Nat) (flushOk : Nat → Bool) :
    List PyStr → Nat → List SegmentRecord → List (List SegmentRecord) → List Bool →
    List SegmentRecord × List (List SegmentRecord) × List Bool
  | [], _, batch, flushed, att => (batch, flushed, att)
  | c :: rest, cn, batch, flushed, att =>
    if isBlank c then runChunks bs fname pn flushOk rest (cn + 1) batch flushed att
    else
      let batch2 := batch ++ [⟨c, pn + 1, fname, cn + 1⟩]
      if bs ≤ batch2.length then
        if flushOk att.length then
          runChunks bs fname pn flushOk rest (cn + 1) [] (flushed ++ [batch2]) (att ++ [true])
        else (batch2, flushed, att ++ [false])
      else runChunks bs fname pn flushOk rest (cn + 1) batch2 flushed att

/-- The page loop of `process_pdf`.  A page-level `Exception` (including one
raised by a failed `_process_batch` inside the chunk loop) is caught by the
per-page handler and the loop continues; a `KeyboardInterrupt` is not caught
(`except Exception` does not catch it) and propagates, reported in the last
component. -/
def runPages (bs cs : Nat) (fname : PyStr) (flushOk : Nat → Bool) :
    List PageAct → Nat → List SegmentRecord → List (List SegmentRecord) → List Bool →
    List SegmentRecord × List (List SegmentRecord) × List Bool × Bool
  | [], _, batch, flushed, att => (batch, flushed, att, false)
  | act :: rest, pn, batch, flushed, att =>
    match act with
    | .raiseKI => (batch, flushed, att, true)
    | .raiseExc => runPages bs cs fname flushOk rest (pn + 1) batch flushed att
    | .text t =>
      if isBlank t then runPages bs cs fname flushOk rest (pn + 1) batch flushed att
      else
        let s := runChunks bs fname pn flushOk (chunkText t cs) 0 batch flushed att
        runPages bs cs fname flushOk rest (pn + 1) s.1 s.2.1 s.2.2

/-- Outcome of `process_pdf` on one file: the batches committed to the
backend, the outcomes of all `_process_batch` attempts, whether a
`KeyboardInterrupt` propagated out, and whether control reached the
`_create_backup` call. -/
structure PdfResult where
  flushedBatches : List (List SegmentRecord)
  attempts : List Bool
  raisedKI : Bool
  backupAttempted : Bool
deriving DecidableEq

/-- Model of `PDFProcessor.process_pdf`: run the page loop, then flush the
trailing partial batch (`if batch: self._process_batch(batch)`), then call
`_create_backup`.  A failed trailing flush is caught by the outer
`except Exception` handler, so the backup is skipped but nothing is raised;
a `KeyboardInterrupt` propagates (the outer handler only catches
`Exception`). -/
def processPdfModel (fname : PyStr) (pages : List PageAct) (bs cs : Nat)
    (flushOk : Nat → Bool) : PdfResult :=
  let s := runPages bs cs fname flushOk pages 0 [] [] []
  if s.2.2.2 then ⟨s.2.1, s.2.2.1, true, false⟩
  else if s.1.isEmpty then ⟨s.2.1, s.2.2.1, false, true⟩
  else if flushOk s.2.2.1.length then ⟨s.2.1 ++ [s.1], s.2.2.1 ++ [true], false, true⟩
  else ⟨s.2.1, s.2.2.1 ++ [false], false, false⟩

/-- One file of a directory as `process_directory` sees it: its name, what its
pages do, and how the backend answers that file's flush attempts. -/
structure FileSpec where
  fname : PyStr
  pages : List PageAct
  flushOk : Nat → Bool

/-- Model of `PDFProcessor.process_directory`: process each file in order;
`process_pdf` swallows every ordinary `Exception` itself and the directory
loop additionally re-raises `KeyboardInterrupt`, so the walk stops exactly
when a file propagates a `KeyboardInterrupt`.  Returns the per-file results
of the files actually processed and whether the interrupt propagated. -/
def processDirectory (bs cs : Nat) : List FileSpec → List (PyStr × PdfResult) × Bool
  | [] => ([], false)
  | f :: rest =>
    let r := processPdfModel f.fname f.pages bs cs f.flushOk
    if r.raisedKI then ([(f.fname, r)], true)
    else
      let s := processDirectory bs cs rest
      ((f.fname, r) :: s.1, s.2)

/-- The file names the directory walk touches: everything up to and including
the first file whose processing hits a `KeyboardInterrupt`. -/
def upToFirstKI : List FileSpec → List PyStr
  | [] => []
  | f :: rest =>
    if PageAct.raiseKI ∈ f.pages then [f.fname] else f.fname :: upToFirstKI rest

/-- The `page_number` values of a record sequence are contiguous starting at
1 (this is the contiguity property asserted for emitted records by the spec). -/
def pageNumsContiguous (rs : List SegmentRecord) : Prop :=
  (rs.map (·.page_number)).dedup
    = List.range' 1 (rs.map (·.page_number)).dedup.length

/-- One element of `response['data']['Get']['Document']` as consumed by
`SearchEngine.search`: the stored fields plus the backend certainty score
(`_additional.certainty`, a real in [0,1], modelled as a rational). -/
structure RawResult where
  content : PyStr
  page_number : Nat
  file_name : PyStr
  chunk_number : Nat
  certainty : ℚ
deriving DecidableEq

/-- One formatted search hit as returned by `SearchEngine.search`. -/
structure SearchResult where
  content : PyStr
  page_number : Nat
  file_name : PyStr
  chunk_number : Nat
  relevance_score : ℚ
deriving DecidableEq

/-- Python `round(q, 2)` on an exact value: round to the nearest multiple of
1/100, ties to the even multiple. -/
def pyRound2 (q : ℚ) : ℚ :=
  ((if q * 100 - ⌊q * 100⌋ < 1 / 2 then ⌊q * 100⌋
    else if 1 / 2 < q * 100 - ⌊q * 100⌋ then ⌊q * 100⌋ + 1
    else if ⌊q * 100⌋ % 2 = 0 then ⌊q * 100⌋ else ⌊q * 100⌋ + 1 : ℤ) : ℚ) / 100

/-- The per-hit formatting done by `SearchEngine.search`:
`relevance_score = round(certainty * 100, 2)`. -/
def formatResult (r : RawResult) : SearchResult :=
  ⟨r.content, r.page_number, r.file_name, r.chunk_number, pyRound2 (r.certainty * 100)⟩

/-- Model of `SearchEngine.search`.  The backend call plus the response
unpacking (`response['data']['Get']['Document']`) either raises — modelled by
`Except.error`, caught by the `except` clause which returns `[]` — or yields
the raw result list; the loop keeps, in order, exactly the hits with
`certainty >= min_score` and formats each. -/
def searchModel (resp : Except String (List RawResult)) (minScore : ℚ) : List SearchResult :=
  match resp with
  | .error _ => []
  | .ok results => (results.filter fun r => minScore ≤ r.certainty).map formatResult

/-- Model of `SearchEngine.get_document_count`: pass the backend aggregate
count through, or return 0 if the call or unpacking raises. -/
def getDocumentCount (resp : Except String Int) : Int :=
  match resp with
  | .error _ => 0
  | .ok n => n

/-- One entry of `result['data']['Get']['Document']` in `_create_backup`:
the stored fields plus the backend-assigned id from `_additional`. -/
structure BackupChunk where
  content : PyStr
  page_number : Nat
  file_name : PyStr
  chunk_number : Nat
  id : PyStr
deriving DecidableEq

/-- The `backup_data` dictionary `_create_backup` serializes:
`{metadata: {filename, backup_time, total_chunks}, chunks}`. -/
structure BackupSnapshot where
  filename : PyStr
  backup_time : PyStr
  total_chunks : Nat
  chunks : List BackupChunk
deriving DecidableEq

/-- Builds `backup_data` exactly as `_create_backup` does:
`total_chunks = len(result['data']['Get']['Document'])` and
`chunks = result['data']['Get']['Document']`. -/
def mkBackupData (filename ts : PyStr) (docs : List BackupChunk) : BackupSnapshot :=
  ⟨filename, ts, docs.length, docs⟩

/-- Model of `PDFProcessor._create_backup`.  `queryResult` is the backend
query: `Except.error` if the query raises (caught, `return False`);
`Except.ok none` if it returns a value that fails the
`result and 'data' in result and ...` shape check — in that case the
function falls off the end and returns Python `None`, modelled as `none`;
`Except.ok (some docs)` if the expected shape is present.  `writeOk` tells
whether the file write succeeds (a raising write is caught, `return False`).
Returns the Python return value and the snapshot written, if any. -/
def createBackup (filename ts : PyStr) (queryResult : Except String (Option (List BackupChunk)))
    (writeOk : Bool) : Option Bool × Option BackupSnapshot :=
  match queryResult with
  | .error _ => (some false, none)
  | .ok none => (none, none)
  | .ok (some docs) =>
    if writeOk then (some true, some (mkBackupData filename ts docs))
    else (some false, none)

theorem pySplitAux_append_word (w : PyStr) (hw : ∀ c ∈ w, isWS c = false) :
    ∀ (s acc : PyStr), pySplitAux (w ++ s) acc = pySplitAux s (w.reverse ++ acc) := by
  induction w with
  | nil => intro s acc; simp
  | cons c w ih =>
    intro s acc
    have hc : isWS c = false := hw c (by simp)
    have hw2 : ∀ c2 ∈ w, isWS c2 = false := fun c2 h2 => hw c2 (by simp [h2])
    simp only [List.cons_append, pySplitAux, hc, List.append_eq]
    rw [if_neg (by simp), ih hw2 s (c :: acc)]
    simp [List.append_assoc]

theorem pySplit_sjoin (ws : List PyStr) :
    (∀ w ∈ ws, w ≠ [] ∧ ∀ c ∈ w, isWS c = false) → pySplit (sjoin ws) = ws := by
  induction ws with
  | nil => intro _; rfl
  | cons w rest ih =>
    intro h
    have hw := h w (List.mem_cons_self _ _)
    have hrest : ∀ w2 ∈ rest, w2 ≠ [] ∧ ∀ c ∈ w2, isWS c = false :=
      fun w2 h2 => h w2 (List.mem_cons_of_mem _ h2)
    cases rest with
    | nil =>
      show pySplitAux (sjoin [w]) [] = [w]
      have h1 : sjoin [w] = w ++ ([] : PyStr) := by simp [sjoin]
      rw [h1, pySplitAux_append_word w hw.2]
      simp [pySplitAux, List.isEmpty_iff, hw.1]
    | cons x rest2 =>
      have h1 : pySplit (sjoin (x :: rest2)) = x :: rest2 := ih hrest
      show pySplitAux (sjoin (w :: x :: rest2)) [] = w :: x :: rest2
      have h2 : sjoin (w :: x :: rest2) = w ++ (' ' :: sjoin (x :: rest2)) := rfl
      rw [h2, pySplitAux_append_word w hw.2]
      have hsp : isWS ' ' = true := by decide
      simp [pySplitAux, hsp, List.isEmpty_iff, hw.1]
      exact h1

theorem pySplit_words : ∀ (s acc : PyStr), (∀ c ∈ acc, isWS c = false) →
    ∀ w ∈ pySplitAux s acc, w ≠ [] ∧ ∀ c ∈ w, isWS c = false := by
  intro s
  induction s with
  | nil =>
    intro acc hacc w hw
    simp only [pySplitAux] at hw
    split at hw
    · simp at hw
    · rename_i hne
      simp at hw
      subst hw
      constructor
      · simp [List.isEmpty_iff] at hne
        simp [hne]
      · intro c hc
        exact hacc c (List.mem_reverse.mp hc)
  | cons c cs ih =>
    intro acc hacc w hw
    simp only [pySplitAux] at hw
    by_cases hc : isWS c = true
    · rw [if_pos (by simp [hc])] at hw
      split at hw
      · exact ih [] (by simp) w hw
      · rename_i hne
        rcases List.mem_cons.mp hw with h1 | h1
        · subst h1
          constructor
          · simp [List.isEmpty_iff] at hne
            simp [hne]
          · intro c2 hc2
            exact hacc c2 (List.mem_reverse.mp hc2)
        · exact ih [] (by simp) w h1
    · rw [if_neg (by simp [hc])] at hw
      refine ih (c :: acc) ?_ w hw
      intro c2 hc2
      rcases List.mem_cons.mp hc2 with h1 | h1
      · subst h1; simpa using hc
      · exact hacc c2 h1

theorem pySplitAux_all_ws : ∀ (s : PyStr), (∀ c ∈ s, isWS c = true) →
    pySplitAux s [] = [] := by
  intro s
  induction s with
  | nil => intro _; rfl
  | cons c cs ih =>
    intro h
    have hc : isWS c = true := h c (by simp)
    simp only [pySplitAux, hc]
    rw [if_pos (by simp [hc]), if_pos (by simp)]
    exact ih (fun c2 h2 => h c2 (by simp [h2]))

theorem pySplit_blank (s : PyStr) (h : isBlank s = true) : pySplit s = [] :=
  pySplitAux_all_ws s (by simpa [isBlank, List.all_eq_true] using h)

theorem sjoin_append (A B : List PyStr) (hA : A ≠ []) (hB : B ≠ []) :
    sjoin (A ++ B) = sjoin A ++ ' ' :: sjoin B := by
  induction A with
  | nil => exact absurd rfl hA
  | cons a A2 ih =>
    cases A2 with
    | nil =>
      cases B with
      | nil => exact absurd rfl hB
      | cons b B2 => rfl
    | cons a2 A3 =>
      have h1 : sjoin ((a :: a2 :: A3) ++ B) = a ++ ' ' :: sjoin ((a2 :: A3) ++ B) := rfl
      rw [h1, ih (by simp)]
      have h2 : sjoin (a :: a2 :: A3) = a ++ ' ' :: sjoin (a2 :: A3) := rfl
      rw [h2]
      simp [List.append_assoc]

theorem sjoin_map_join : ∀ (CL : List (List PyStr)), (∀ L ∈ CL, L ≠ []) →
    sjoin (CL.map sjoin) = sjoin CL.flatten := by
  intro CL
  induction CL with
  | nil => intro _; rfl
  | cons L CL2 ih =>
    intro h
    have hL : L ≠ [] := h L (by simp)
    cases CL2 with
    | nil => simp [sjoin]
    | cons M CL3 =>
      have hM : M ≠ [] := h M (by simp)
      have hjoin : (M :: CL3).flatten ≠ [] := by
        simp only [List.flatten_cons]
        exact fun hcontra => hM (List.append_eq_nil.mp hcontra).1
      have h2 : sjoin ((L :: M :: CL3).map sjoin)
          = sjoin L ++ ' ' :: sjoin ((M :: CL3).map sjoin) := rfl
      rw [h2, ih (fun L2 h2 => h L2 (by simp [h2]))]
      have h3 : (L :: M :: CL3).flatten = L ++ (M :: CL3).flatten := rfl
      rw [h3, sjoin_append L _ hL hjoin]

theorem sjoin_length : ∀ (L : List PyStr), (sjoin L).length = joinLen L
  | [] => rfl
  | [_] => rfl
  | w :: x :: rest => by
    have h1 : sjoin (w :: x :: rest) = w ++ ' ' :: sjoin (x :: rest) := rfl
    have h2 : joinLen (w :: x :: rest) = w.length + 1 + joinLen (x :: rest) := rfl
    rw [h1, h2, ← sjoin_length (x :: rest)]
    simp
    omega

theorem joinLen_append_single : ∀ (L : List PyStr) (w : PyStr),
    joinLen (L ++ [w]) = if L.isEmpty then w.length else joinLen L + 1 + w.length := by
  intro L
  induction L with
  | nil => intro w; rfl
  | cons a L2 ih =>
    intro w
    cases L2 with
    | nil => rfl
    | cons b rest =>
      have h2 : joinLen ((a :: b :: rest) ++ [w])
          = a.length + 1 + joinLen ((b :: rest) ++ [w]) := rfl
      rw [h2, ih w]
      simp [joinLen]
      omega

theorem chunkLoopW_flatten (n : Nat) : ∀ (ws cur : List PyStr) (size : Nat),
    (chunkLoopW n ws cur size).flatten = cur ++ ws := by
  intro ws
  induction ws with
  | nil =>
    intro cur size
    by_cases h : cur.isEmpty
    · simp [chunkLoopW, h, List.isEmpty_iff.mp h]
    · simp [chunkLoopW, h]
  | cons w ws2 ih =>
    intro cur size
    by_cases h : n < size + w.length + 1
    · by_cases hc : cur.isEmpty
      · simp [chunkLoopW, h, hc, ih, List.isEmpty_iff.mp hc]
      · simp [chunkLoopW, h, hc, ih]
    · simp [chunkLoopW, h, ih]

theorem chunkLoopW_ne_nil (n : Nat) : ∀ (ws cur : List PyStr) (size : Nat),
    ∀ L ∈ chunkLoopW n ws cur size, L ≠ [] := by
  intro ws
  induction ws with
  | nil =>
    intro cur size L hL
    by_cases h : cur.isEmpty
    · simp [chunkLoopW, h] at hL
    · simp [chunkLoopW, h] at hL
      subst hL
      simpa [List.isEmpty_iff] using h
  | cons w ws2 ih =>
    intro cur size L hL
    by_cases h : n < size + w.length + 1
    · by_cases hc : cur.isEmpty
      · simp [chunkLoopW, h, hc] at hL
        exact ih [w] w.length L hL
      · simp [chunkLoopW, h, hc] at hL
        rcases hL with h1 | h1
        · subst h1; simpa [List.isEmpty_iff] using hc
        · exact ih [w] w.length L h1
    · simp [chunkLoopW, h] at hL
      exact ih (cur ++ [w]) _ L hL

theorem chunkLoopW_mem_words (n : Nat) : ∀ (ws cur : List PyStr) (size : Nat),
    ∀ L ∈ chunkLoopW n ws cur size, ∀ w ∈ L, w ∈ cur ∨ w ∈ ws := by
  intro ws
  induction ws with
  | nil =>
    intro cur size L hL w hw
    by_cases h : cur.isEmpty
    · simp [chunkLoopW, h] at hL
    · simp [chunkLoopW, h] at hL
      subst hL
      exact Or.inl hw
  | cons w0 ws2 ih =>
    intro cur size L hL w hw
    by_cases h : n < size + w0.length + 1
    · have step : ∀ L2 ∈ chunkLoopW n ws2 [w0] w0.length, ∀ w2 ∈ L2, w2 ∈ cur ∨ w2 ∈ w0 :: ws2 := by
        intro L2 h2 w2 hw2
        rcases ih [w0] w0.length L2 h2 w2 hw2 with h3 | h3
        · simp at h3; subst h3; exact Or.inr (by simp)
        · exact Or.inr (by simp [h3])
      by_cases hc : cur.isEmpty
      · simp [chunkLoopW, h, hc] at hL
        exact step L hL w hw
      · simp [chunkLoopW, h, hc] at hL
        rcases hL with h1 | h1
        · subst h1; exact Or.inl hw
        · exact step L h1 w hw
    · simp [chunkLoopW, h] at hL
      rcases ih (cur ++ [w0]) _ L hL w hw with h1 | h1
      · rcases List.mem_append.mp h1 with h2 | h2
        · exact Or.inl h2
        · simp at h2; subst h2; exact Or.inr (by simp)
      · exact Or.inr (by simp [h1])

theorem chunkLoopW_size_inv (n : Nat) : ∀ (ws cur : List PyStr) (size : Nat),
    joinLen cur ≤ size → (2 ≤ cur.length → size ≤ n) →
    ∀ L ∈ chunkLoopW n ws cur size, 2 ≤ L.length → joinLen L ≤ n := by
  intro ws
  induction ws with
  | nil =>
    intro cur size hJ hB L hL hlen
    by_cases h : cur.isEmpty
    · simp [chunkLoopW, h] at hL
    · simp [chunkLoopW, h] at hL
      subst hL
      exact le_trans hJ (hB hlen)
  | cons w ws2 ih =>
    intro cur size hJ hB L hL hlen
    by_cases h : n < size + w.length + 1
    · have step : L ∈ chunkLoopW n ws2 [w] w.length → joinLen L ≤ n := by
        intro h2
        refine ih [w] w.length (by simp [joinLen]) (by intro hcon; simp at hcon) L h2 hlen
      by_cases hc : cur.isEmpty
      · simp [chunkLoopW, h, hc] at hL
        exact step hL
      · simp [chunkLoopW, h, hc] at hL
        rcases hL with h1 | h1
        · subst h1
          exact le_trans hJ (hB hlen)
        · exact step h1
    · simp [chunkLoopW, h] at hL
      push_neg at h
      refine ih (cur ++ [w]) (size + w.length + 1) ?_ ?_ L hL hlen
      · rw [joinLen_append_single]
        by_cases hc : cur.isEmpty
        · simp [hc]; omega
        · simp [hc]; omega
      · intro _; exact h

/-- Claim C1: for every input text and every positive `max_size` N, joining
the segments returned by `_chunk_text` with single spaces and re-splitting
the result on whitespace yields exactly the word sequence of the original
text (no word dropped, duplicated, or reordered); empty or whitespace-only
text yields an empty segment sequence. -/
theorem chunker_preserves_words (text : PyStr) (N : Nat) (hN : 0 < N) :
    pySplit (sjoin (chunkText text N)) = pySplit text
    ∧ (isBlank text = true → chunkText text N = []) := by
  constructor
  · have hwords : ∀ w ∈ pySplit text, w ≠ [] ∧ ∀ c ∈ w, isWS c = false :=
      pySplit_words text [] (by simp)
    have hne : ∀ L ∈ chunkLoopW N (pySplit text) [] 0, L ≠ [] :=
      chunkLoopW_ne_nil N (pySplit text) [] 0
    have hflat := chunkLoopW_flatten N (pySplit text) [] 0
    have hgood : ∀ w ∈ (chunkLoopW N (pySplit text) [] 0).flatten,
        w ≠ [] ∧ ∀ c ∈ w, isWS c = false := by
      intro w hw
      rw [hflat] at hw
      exact hwords w (by simpa using hw)
    show pySplit (sjoin ((chunkLoopW N (pySplit text) [] 0).map sjoin)) = pySplit text
    rw [sjoin_map_join _ hne, pySplit_sjoin _ hgood, hflat]
    simp
  · intro hb
    show (chunkLoopW N (pySplit text) [] 0).map sjoin = []
    rw [pySplit_blank text hb]
    rfl

/-- Concrete check for `chunker_preserves_words` at text `"ab cd"`, N = 5. -/
theorem chunker_preserves_words_check :
    0 < 5
    ∧ (pySplit (sjoin (chunkText ['a', 'b', ' ', 'c', 'd'] 5))
        = pySplit ['a', 'b', ' ', 'c', 'd']
      ∧ (isBlank ['a', 'b', ' ', 'c', 'd'] = true
        → chunkText ['a', 'b', ' ', 'c', 'd'] 5 = [])) :=
  ⟨by decide, chunker_preserves_words ['a', 'b', ' ', 'c', 'd'] 5 (by decide)⟩

/-- Claim C10: for every text and positive N, every segment returned by
`_chunk_text` that contains two or more words has character length at most
N; only a single-word segment can exceed the bound. -/
theorem chunk_multiword_bound (text : PyStr) (N : Nat) (hN : 0 < N) :
    ∀ c ∈ chunkText text N, 2 ≤ (pySplit c).length → c.length ≤ N := by
  intro c hc h2
  obtain ⟨L, hL, rfl⟩ := List.mem_map.mp hc
  have hwords : ∀ w ∈ pySplit text, w ≠ [] ∧ ∀ c2 ∈ w, isWS c2 = false :=
    pySplit_words text [] (by simp)
  have hLwords : ∀ w ∈ L, w ≠ [] ∧ ∀ c2 ∈ w, isWS c2 = false := by
    intro w hw
    rcases chunkLoopW_mem_words N (pySplit text) [] 0 L hL w hw with h1 | h1
    · simp at h1
    · exact hwords w h1
  rw [pySplit_sjoin L hLwords] at h2
  rw [sjoin_length]
  exact chunkLoopW_size_inv N (pySplit text) [] 0 (by simp [joinLen])
    (by intro h; simp at h) L hL h2

/-- Concrete check for `chunk_multiword_bound` at text `"ab cd"`, N = 100. -/
theorem chunk_multiword_bound_check :
    0 < 100
    ∧ ['a', 'b', ' ', 'c', 'd'] ∈ chunkText ['a', 'b', ' ', 'c', 'd'] 100
    ∧ 2 ≤ (pySplit ['a', 'b', ' ', 'c', 'd']).length
    ∧ (['a', 'b', ' ', 'c', 'd'] : PyStr).length ≤ 100 :=
  ⟨by decide, by decide, by decide,
    chunk_multiword_bound ['a', 'b', ' ', 'c', 'd'] 100 (by decide) _ (by decide) (by decide)⟩

theorem pageRecsAux_pn (fname : PyStr) (pn : Nat) : ∀ (chunks : List PyStr) (cn : Nat),
    ∀ r ∈ pageRecsAux fname pn chunks cn, r.page_number = pn + 1 := by
  intro chunks
  induction chunks with
  | nil => intro cn r hr; simp [pageRecsAux] at hr
  | cons c rest ih =>
    intro cn r hr
    by_cases hc : isBlank c = true
    · simp only [pageRecsAux, if_pos hc] at hr
      exact ih _ r hr
    · simp only [pageRecsAux, if_neg hc] at hr
      rcases List.mem_cons.mp hr with h1 | h1
      · subst h1; rfl
      · exact ih _ r h1

theorem mem_processRecsAux (fname : PyStr) (cs : Nat) : ∀ (texts : List PyStr) (pn : Nat),
    ∀ r ∈ processRecsAux fname cs texts pn,
      ∃ i t, texts[i]? = some t ∧ isBlank t = false ∧ r.page_number = pn + i + 1 := by
  intro texts
  induction texts with
  | nil => intro pn r hr; simp [processRecsAux] at hr
  | cons t rest ih =>
    intro pn r hr
    simp only [processRecsAux] at hr
    rcases List.mem_append.mp hr with h1 | h1
    · by_cases hb : isBlank t = true
      · simp [pageRecords, hb] at h1
      · refine ⟨0, t, by simp, by simpa using hb, ?_⟩
        rw [pageRecords, if_neg hb] at h1
        have h2 := pageRecsAux_pn fname pn (chunkText t cs) 0 r h1
        omega
    · obtain ⟨i, t2, hget, hbl, hpn⟩ := ih (pn + 1) r h1
      exact ⟨i + 1, t2, by simpa using hget, hbl, by omega⟩

/-- Claim C2 fails on the code: with pages `["a", " ", "b"]` the blank middle
page is skipped but `page_number` is the physical index plus one, so the
emitted records carry page numbers 1 and 3 — not a contiguous sequence. -/
theorem page_numbers_gap_cex :
    ¬ pageNumsContiguous (processRecords ['f'] [['a'], [' '], ['b']] 100) := by
  unfold pageNumsContiguous
  decide

/-- Claim C2 (amended): each emitted record's `page_number` equals the
1-based physical index of its source page in the file; blank pages emit no
records, so a skipped blank page leaves a gap in the `page_number` sequence
rather than being renumbered. -/
theorem page_number_is_physical_index (fname : PyStr) (texts : List PyStr) (cs : Nat) :
    ∀ r ∈ processRecords fname texts cs,
      ∃ i t, texts[i]? = some t ∧ isBlank t = false ∧ r.page_number = i + 1 := by
  intro r hr
  obtain ⟨i, t, hget, hbl, hpn⟩ := mem_processRecsAux fname cs texts 0 r hr
  exact ⟨i, t, hget, hbl, by omega⟩

/-- Concrete check for `page_number_is_physical_index`: the record emitted
for the third physical page of `["a", " ", "b"]`. -/
theorem page_number_is_physical_index_check :
    (⟨['b'], 3, ['f'], 1⟩ : SegmentRecord) ∈ processRecords ['f'] [['a'], [' '], ['b']] 100
    ∧ ∃ i t, ([['a'], [' '], ['b']] : List PyStr)[i]? = some t ∧ isBlank t = false
        ∧ (⟨['b'], 3, ['f'], 1⟩ : SegmentRecord).page_number = i + 1 :=
  ⟨by decide, page_number_is_physical_index ['f'] [['a'], [' '], ['b']] 100 _ (by decide)⟩

theorem runChunks_blank (bs : Nat) (fname : PyStr) (pn : Nat) (flushOk : Nat → Bool)
    (c : PyStr) (rest : List PyStr) (cn : Nat) (batch : List SegmentRecord)
    (flushed : List (List SegmentRecord)) (att : List Bool) (hc : isBlank c = true) :
    runChunks bs fname pn flushOk (c :: rest) cn batch flushed att
      = runChunks bs fname pn flushOk rest (cn + 1) batch flushed att := by
  simp only [runChunks, if_pos hc]

theorem runChunks_flush_ok (bs : Nat) (fname : PyStr) (pn : Nat) (flushOk : Nat → Bool)
    (c : PyStr) (rest : List PyStr) (cn : Nat) (batch : List SegmentRecord)
    (flushed : List (List SegmentRecord)) (att : List Bool)
    (hc : ¬ isBlank c = true) (hb : bs ≤ (batch ++ [(⟨c, pn + 1, fname, cn + 1⟩ : SegmentRecord)]).length)
    (hf : flushOk att.length = true) :
    runChunks bs fname pn flushOk (c :: rest) cn batch flushed att
      = runChunks bs fname pn flushOk rest (cn + 1) []
          (flushed ++ [batch ++ [⟨c, pn + 1, fname, cn + 1⟩]]) (att ++ [true]) := by
  simp only [runChunks, if_neg hc, if_pos hb, hf]
  simp

theorem runChunks_flush_fail (bs : Nat) (fname : PyStr) (pn : Nat) (flushOk : Nat → Bool)
    (c : PyStr) (rest : List PyStr) (cn : Nat) (batch : List SegmentRecord)
    (flushed : List (List SegmentRecord)) (att : List Bool)
    (hc : ¬ isBlank c = true) (hb : bs ≤ (batch ++ [(⟨c, pn + 1, fname, cn + 1⟩ : SegmentRecord)]).length)
    (hf : flushOk att.length = false) :
    runChunks bs fname pn flushOk (c :: rest) cn batch flushed att
      = (batch ++ [⟨c, pn + 1, fname, cn + 1⟩], flushed, att ++ [false]) := by
  simp only [runChunks, if_neg hc, if_pos hb, hf]
  simp

theorem runChunks_accum (bs : Nat) (fname : PyStr) (pn : Nat) (flushOk : Nat → Bool)
    (c : PyStr) (rest : List PyStr) (cn : Nat) (batch : List SegmentRecord)
    (flushed : List (List SegmentRecord)) (att : List Bool)
    (hc : ¬ isBlank c = true)
    (hb : ¬ bs ≤ (batch ++ [(⟨c, pn + 1, fname, cn + 1⟩ : SegmentRecord)]).length) :
    runChunks bs fname pn flushOk (c :: rest) cn batch flushed att
      = runChunks bs fname pn flushOk rest (cn + 1)
          (batch ++ [⟨c, pn + 1, fname, cn + 1⟩]) flushed att := by
  simp only [runChunks, if_neg hc, if_neg hb]

theorem runPages_text (bs cs : Nat) (fname : PyStr) (flushOk : Nat → Bool)
    (t : PyStr) (rest : List PageAct) (pn : Nat) (batch : List SegmentRecord)
    (flushed : List (List SegmentRecord)) (att : List Bool) (hb : ¬ isBlank t = true) :
    runPages bs cs fname flushOk (PageAct.text t :: rest) pn batch flushed att
      = runPages bs cs fname flushOk rest (pn + 1)
          (runChunks bs fname pn flushOk (chunkText t cs) 0 batch flushed att).1
          (runChunks bs fname pn flushOk (chunkText t cs) 0 batch flushed att).2.1
          (runChunks bs fname pn flushOk (chunkText t cs) 0 batch flushed att).2.2 := by
  simp only [runPages, if_neg hb]

theorem runPages_blank (bs cs : Nat) (fname : PyStr) (flushOk : Nat → Bool)
    (t : PyStr) (rest : List PageAct) (pn : Nat) (batch : List SegmentRecord)
    (flushed : List (List SegmentRecord)) (att : List Bool) (hb : isBlank t = true) :
    runPages bs cs fname flushOk (PageAct.text t :: rest) pn batch flushed att
      = runPages bs cs fname flushOk rest (pn + 1) batch flushed att := by
  simp only [runPages, if_pos hb]

theorem runPages_ki_iff (bs cs : Nat) (fname : PyStr) (flushOk : Nat → Bool) :
    ∀ (pages : List PageAct) (pn : Nat) (batch : List SegmentRecord)
      (flushed : List (List SegmentRecord)) (att : List Bool),
      ((runPages bs cs fname flushOk pages pn batch flushed att).2.2.2 = true)
        ↔ PageAct.raiseKI ∈ pages := by
  intro pages
  induction pages with
  | nil => intro pn b f a; simp [runPages]
  | cons act rest ih =>
    intro pn b f a
    cases act with
    | raiseKI => simp [runPages]
    | raiseExc => simp [runPages, ih]
    | text t =>
      by_cases hb : isBlank t = true
      · rw [runPages_blank bs cs fname flushOk t rest pn b f a hb]
        simp [ih]
      · rw [runPages_text bs cs fname flushOk t rest pn b f a hb]
        simp [ih]

theorem processPdfModel_raisedKI (fname : PyStr) (pages : List PageAct) (bs cs : Nat)
    (flushOk : Nat → Bool) :
    (processPdfModel fname pages bs cs flushOk).raisedKI
      = (runPages bs cs fname flushOk pages 0 [] [] []).2.2.2 := by
  by_cases h : (runPages bs cs fname flushOk pages 0 [] [] []).2.2.2 = true
  · rw [h]
    simp only [processPdfModel, h, if_true]
  · have h2 : (runPages bs cs fname flushOk pages 0 [] [] []).2.2.2 = false := by
      simpa using h
    rw [h2]
    simp only [processPdfModel, h2, Bool.false_eq_true, if_false]
    split
    · rfl
    · split <;> rfl

theorem processPdfModel_ki_iff (fname : PyStr) (pages : List PageAct) (bs cs : Nat)
    (flushOk : Nat → Bool) :
    ((processPdfModel fname pages bs cs flushOk).raisedKI = true)
      ↔ PageAct.raiseKI ∈ pages := by
  rw [processPdfModel_raisedKI]
  exact runPages_ki_iff bs cs fname flushOk pages 0 [] [] []

theorem runChunks_flushed_extends (bs : Nat) (fname : PyStr) (pn : Nat)
    (flushOk : Nat → Bool) :
    ∀ (chunks : List PyStr) (cn : Nat) (batch : List SegmentRecord)
      (flushed : List (List SegmentRecord)) (att : List Bool),
      ∃ more, (runChunks bs fname pn flushOk chunks cn batch flushed att).2.1
        = flushed ++ more := by
  intro chunks
  induction chunks with
  | nil => intro cn b f a; exact ⟨[], by simp [runChunks]⟩
  | cons c rest ih =>
    intro cn b f a
    by_cases hc : isBlank c = true
    · rw [runChunks_blank bs fname pn flushOk c rest cn b f a hc]
      exact ih _ _ _ _
    · by_cases hb : bs ≤ (b ++ [(⟨c, pn + 1, fname, cn + 1⟩ : SegmentRecord)]).length
      · by_cases hf : flushOk a.length = true
        · rw [runChunks_flush_ok bs fname pn flushOk c rest cn b f a hc hb hf]
          obtain ⟨more, hm⟩ := ih (cn + 1) []
            (f ++ [b ++ [(⟨c, pn + 1, fname, cn + 1⟩ : SegmentRecord)]]) (a ++ [true])
          exact ⟨[b ++ [(⟨c, pn + 1, fname, cn + 1⟩ : SegmentRecord)]] ++ more,
            by rw [hm]; simp⟩
        · rw [runChunks_flush_fail bs fname pn flushOk c rest cn b f a hc hb
            (by simpa using hf)]
          exact ⟨[], by simp⟩
      · rw [runChunks_accum bs fname pn flushOk c rest cn b f a hc hb]
        exact ih _ _ _ _

theorem runPages_flushed_extends (bs cs : Nat) (fname : PyStr) (flushOk : Nat → Bool) :
    ∀ (pages : List PageAct) (pn : Nat) (batch : List SegmentRecord)
      (flushed : List (List SegmentRecord)) (att : List Bool),
      ∃ more, (runPages bs cs fname flushOk pages pn batch flushed att).2.1
        = flushed ++ more := by
  intro pages
  induction pages with
  | nil => intro pn b f a; exact ⟨[], by simp [runPages]⟩
  | cons act rest ih =>
    intro pn b f a
    cases act with
    | raiseKI => exact ⟨[], by simp [runPages]⟩
    | raiseExc => exact ih (pn + 1) b f a
    | text t =>
      by_cases hb : isBlank t = true
      · rw [runPages_blank bs cs fname flushOk t rest pn b f a hb]
        exact ih _ _ _ _
      · rw [runPages_text bs cs fname flushOk t rest pn b f a hb]
        obtain ⟨m1, hm1⟩ := runChunks_flushed_extends bs fname pn flushOk (chunkText t cs) 0 b f a
        obtain ⟨m2, hm2⟩ := ih (pn + 1)
          (runChunks bs fname pn flushOk (chunkText t cs) 0 b f a).1
          (runChunks bs fname pn flushOk (chunkText t cs) 0 b f a).2.1
          (runChunks bs fname pn flushOk (chunkText t cs) 0 b f a).2.2
        exact ⟨m1 ++ m2, by rw [hm2, hm1, List.append_assoc]⟩

/-- Claim C3 fails on the code: with batch size 1 and two one-chunk pages,
the first flush attempt fails (`attempts = [false, true]`), yet the record of
page 2 is still chunked, written and committed afterwards — the per-page
`except Exception` handler catches the batch error and the page loop
continues, so the remainder of the file is NOT abandoned. -/
theorem batch_failure_cex :
    (processPdfModel ['f'] [PageAct.text ['a', 'a'], PageAct.text ['b', 'b']] 1 100
        (fun i => decide (1 ≤ i))).attempts = [false, true]
    ∧ (processPdfModel ['f'] [PageAct.text ['a', 'a'], PageAct.text ['b', 'b']] 1 100
        (fun i => decide (1 ≤ i))).raisedKI = false
    ∧ ∃ r ∈ (processPdfModel ['f'] [PageAct.text ['a', 'a'], PageAct.text ['b', 'b']] 1 100
        (fun i => decide (1 ≤ i))).flushedBatches.flatten, r.page_number = 2 := by
  decide

/-- Claim C3 (amended): a backend batch-insert failure propagates out of
`_process_batch` but is caught inside `process_pdf`: a failure inside a
page's chunk loop abandons only the remainder of that page (the pending
records are retained) and the loop continues with the next page; a failure
of the trailing flush only skips the backup step.  In neither case does the
error escape the file's processing (only a `KeyboardInterrupt` does), and
batches already flushed earlier in the file remain committed. -/
theorem batch_failure_scoped (fname : PyStr) (pages : List PageAct) (bs cs : Nat)
    (flushOk : Nat → Bool) :
    (PageAct.raiseKI ∉ pages → (processPdfModel fname pages bs cs flushOk).raisedKI = false)
    ∧ ∀ pn batch flushed att, ∃ more,
        (runPages bs cs fname flushOk pages pn batch flushed att).2.1 = flushed ++ more := by
  constructor
  · intro hki
    have h := processPdfModel_ki_iff fname pages bs cs flushOk
    cases hres : (processPdfModel fname pages bs cs flushOk).raisedKI
    · rfl
    · exact absurd (h.mp hres) hki
  · intro pn batch flushed att
    exact runPages_flushed_extends bs cs fname flushOk pages pn batch flushed att

/-- Concrete check for `batch_failure_scoped` on the counterexample input of
claim C3: no error escapes the file and previously committed batches are
preserved. -/
theorem batch_failure_scoped_check :
    (processPdfModel ['g'] [PageAct.text ['a', 'a'], PageAct.text ['b', 'b']] 1 100
        (fun i => decide (1 ≤ i))).raisedKI = false
    ∧ ∃ more, (runPages 1 100 ['g'] (fun i => decide (1 ≤ i))
        [PageAct.text ['a', 'a'], PageAct.text ['b', 'b']] 0 []
        [[⟨['z'], 1, ['g'], 1⟩]] []).2.1 = [[⟨['z'], 1, ['g'], 1⟩]] ++ more :=
  ⟨(batch_failure_scoped ['g'] [PageAct.text ['a', 'a'], PageAct.text ['b', 'b']] 1 100
      (fun i => decide (1 ≤ i))).1 (by decide),
   (batch_failure_scoped ['g'] [PageAct.text ['a', 'a'], PageAct.text ['b', 'b']] 1 100
      (fun i => decide (1 ≤ i))).2 0 [] [[⟨['z'], 1, ['g'], 1⟩]] []⟩

theorem runChunks_allOk (bs : Nat) (fname : PyStr) (pn : Nat) :
    ∀ (chunks : List PyStr) (cn : Nat) (batch : List SegmentRecord)
      (flushed : List (List SegmentRecord)) (att : List Bool),
      batch.length < bs →
      ∃ new batch2,
        runChunks bs fname pn (fun _ => true) chunks cn batch flushed att
          = (batch2, flushed ++ new, att ++ List.replicate new.length true)
        ∧ (∀ b ∈ new, b.length = bs)
        ∧ new.flatten ++ batch2 = batch ++ pageRecsAux fname pn chunks cn
        ∧ batch2.length < bs := by
  intro chunks
  induction chunks with
  | nil =>
    intro cn batch flushed att hlt
    exact ⟨[], batch, by simp [runChunks], by simp, by simp [pageRecsAux], hlt⟩
  | cons c rest ih =>
    intro cn batch flushed att hlt
    by_cases hc : isBlank c = true
    · rw [runChunks_blank bs fname pn _ c rest cn batch flushed att hc]
      obtain ⟨new, b2, heq, hsz, hjoin, hlt2⟩ := ih (cn + 1) batch flushed att hlt
      refine ⟨new, b2, heq, hsz, ?_, hlt2⟩
      rw [hjoin]
      simp [pageRecsAux, hc]
    · by_cases hb : bs ≤ (batch ++ [(⟨c, pn + 1, fname, cn + 1⟩ : SegmentRecord)]).length
      · have hflen : (batch ++ [(⟨c, pn + 1, fname, cn + 1⟩ : SegmentRecord)]).length = bs := by
          simp only [List.length_append, List.length_singleton] at hb ⊢
          omega
        rw [runChunks_flush_ok bs fname pn _ c rest cn batch flushed att hc hb rfl]
        obtain ⟨new, b2, heq, hsz, hjoin, hlt2⟩ := ih (cn + 1) []
          (flushed ++ [batch ++ [(⟨c, pn + 1, fname, cn + 1⟩ : SegmentRecord)]])
          (att ++ [true]) (by simp only [List.length_nil]; omega)
        refine ⟨(batch ++ [(⟨c, pn + 1, fname, cn + 1⟩ : SegmentRecord)]) :: new, b2, ?_, ?_, ?_, hlt2⟩
        · rw [heq]
          simp [List.replicate_succ, List.append_assoc]
        · intro b hbmem
          rcases List.mem_cons.mp hbmem with h1 | h1
          · rw [h1]; exact hflen
          · exact hsz b h1
        · simp only [List.flatten_cons, List.append_assoc]
          rw [hjoin]
          simp [pageRecsAux, hc]
      · rw [runChunks_accum bs fname pn _ c rest cn batch flushed att hc hb]
        have hlt2 : (batch ++ [(⟨c, pn + 1, fname, cn + 1⟩ : SegmentRecord)]).length < bs := by
          simp only [List.length_append, List.length_singleton] at hb ⊢
          omega
        obtain ⟨new, b2, heq, hsz, hjoin, hlt3⟩ := ih (cn + 1) _ flushed att hlt2
        refine ⟨new, b2, heq, hsz, ?_, hlt3⟩
        rw [hjoin]
        simp [pageRecsAux, hc, List.append_assoc]

theorem runPages_allOk (bs cs : Nat) (fname : PyStr) :
    ∀ (texts : List PyStr) (pn : Nat) (batch : List SegmentRecord)
      (flushed : List (List SegmentRecord)) (att : List Bool),
      batch.length < bs →
      ∃ new batch2,
        runPages bs cs fname (fun _ => true) (texts.map PageAct.text) pn batch flushed att
          = (batch2, flushed ++ new, att ++ List.replicate new.length true, false)
        ∧ (∀ b ∈ new, b.length = bs)
        ∧ new.flatten ++ batch2 = batch ++ processRecsAux fname cs texts pn
        ∧ batch2.length < bs := by
  intro texts
  induction texts with
  | nil =>
    intro pn batch flushed att hlt
    exact ⟨[], batch, by simp [runPages], by simp, by simp [processRecsAux], hlt⟩
  | cons t rest ih =>
    intro pn batch flushed att hlt
    by_cases hb : isBlank t = true
    · simp only [List.map_cons]
      rw [runPages_blank bs cs fname _ t (rest.map PageAct.text) pn batch flushed att hb]
      obtain ⟨new, b2, heq, hsz, hjoin, hlt2⟩ := ih (pn + 1) batch flushed att hlt
      refine ⟨new, b2, heq, hsz, ?_, hlt2⟩
      rw [hjoin]
      simp [processRecsAux, pageRecords, hb]
    · simp only [List.map_cons]
      rw [runPages_text bs cs fname _ t (rest.map PageAct.text) pn batch flushed att hb]
      obtain ⟨new1, b2, heq1, hsz1, hjoin1, hlt2⟩ :=
        runChunks_allOk bs fname pn (chunkText t cs) 0 batch flushed att hlt
      rw [heq1]
      obtain ⟨new2, b3, heq2, hsz2, hjoin2, hlt3⟩ := ih (pn + 1) b2
        (flushed ++ new1) (att ++ List.replicate new1.length true) hlt2
      refine ⟨new1 ++ new2, b3, ?_, ?_, ?_, hlt3⟩
      · rw [heq2, List.length_append, List.replicate_add]
        simp [List.append_assoc]
      · intro b hbmem
        rcases List.mem_append.mp hbmem with h1 | h1
        · exact hsz1 b h1
        · exact hsz2 b h1
      · rw [List.flatten_append, List.append_assoc, hjoin2]
        rw [← List.append_assoc, hjoin1]
        simp [processRecsAux, pageRecords, hb, List.append_assoc]

/-- Claim C7: with a healthy backend, a flush happens exactly when the
pending batch reaches the configured batch size — every committed batch but
the last has exactly `bs` records, the trailing partial batch (1..bs
records) is flushed at end of file, the committed batches reassemble the
file's full record sequence (the pending list is cleared on each flush, so
nothing is lost or duplicated), every flush attempt corresponds to one
committed batch, and a file with no records triggers no flush at all. -/
theorem batch_flush_policy (fname : PyStr) (texts : List PyStr) (bs cs : Nat) (hbs : 1 ≤ bs) :
    ((processPdfModel fname (texts.map PageAct.text) bs cs (fun _ => true)).flushedBatches.flatten
        = processRecords fname texts cs)
    ∧ (∀ b ∈ (processPdfModel fname (texts.map PageAct.text) bs cs
          (fun _ => true)).flushedBatches.dropLast, b.length = bs)
    ∧ (∀ b ∈ (processPdfModel fname (texts.map PageAct.text) bs cs
          (fun _ => true)).flushedBatches, 1 ≤ b.length ∧ b.length ≤ bs)
    ∧ ((processPdfModel fname (texts.map PageAct.text) bs cs (fun _ => true)).attempts
        = List.replicate (processPdfModel fname (texts.map PageAct.text) bs cs
            (fun _ => true)).flushedBatches.length true)
    ∧ (processRecords fname texts cs = []
        → (processPdfModel fname (texts.map PageAct.text) bs cs
            (fun _ => true)).flushedBatches = []) := by
  obtain ⟨new, b2, heq, hsz, hjoin, hlt⟩ :=
    runPages_allOk bs cs fname texts 0 [] [] [] (by simp only [List.length_nil]; omega)
  simp only [List.nil_append] at heq hjoin
  by_cases hbe : b2.isEmpty
  · have hb2 : b2 = [] := List.isEmpty_iff.mp hbe
    have hR : processPdfModel fname (texts.map PageAct.text) bs cs (fun _ => true)
        = ⟨new, List.replicate new.length true, false, true⟩ := by
      simp only [processPdfModel]
      rw [heq]
      simp [hbe]
    rw [hR]
    subst hb2
    simp only [List.append_nil] at hjoin
    refine ⟨hjoin, ?_, ?_, rfl, ?_⟩
    · intro b hb
      exact hsz b (List.Sublist.mem hb (List.dropLast_sublist new))
    · intro b hb
      have hlen := hsz b hb
      exact ⟨by omega, by omega⟩
    · intro hrec
      have hflat : new.flatten = [] := by rw [hjoin]; exact hrec
      cases new with
      | nil => rfl
      | cons x xs =>
        exfalso
        have hx : x.length = bs := hsz x (by simp)
        have hxnil : x = [] := by
          simp only [List.flatten_cons] at hflat
          exact (List.append_eq_nil.mp hflat).1
        rw [hxnil] at hx
        simp at hx
        omega
  · have hb2 : ¬ b2 = [] := fun h => by simp [h] at hbe
    have hR : processPdfModel fname (texts.map PageAct.text) bs cs (fun _ => true)
        = ⟨new ++ [b2], List.replicate new.length true ++ [true], false, true⟩ := by
      simp only [processPdfModel]
      rw [heq]
      simp [hbe]
    rw [hR]
    refine ⟨?_, ?_, ?_, ?_, ?_⟩
    · show (new ++ [b2]).flatten = processRecords fname texts cs
      rw [List.flatten_append]
      simp only [List.flatten_cons, List.flatten_nil, List.append_nil]
      exact hjoin
    · intro b hb
      rw [List.dropLast_concat] at hb
      exact hsz b hb
    · intro b hb
      rcases List.mem_append.mp hb with h1 | h1
      · have hlen := hsz b h1
        exact ⟨by omega, by omega⟩
      · simp at h1
        subst h1
        have hpos : 0 < b.length := List.length_pos.mpr hb2
        omega
    · show List.replicate new.length true ++ [true]
        = List.replicate (new ++ [b2]).length true
      rw [List.length_append, List.length_singleton, List.replicate_succ']
    · intro hrec
      exfalso
      have hnil : new.flatten ++ b2 = [] := by rw [hjoin]; exact hrec
      exact hb2 (List.append_eq_nil.mp hnil).2

/-- Concrete check for `batch_flush_policy`: one page `"a b"`, batch size 2,
chunk size 100 — a single trailing partial batch with one record. -/
theorem batch_flush_policy_check :
    1 ≤ 2
    ∧ (((processPdfModel ['f'] ([['a', ' ', 'b']].map PageAct.text) 2 100
          (fun _ => true)).flushedBatches.flatten = processRecords ['f'] [['a', ' ', 'b']] 100)
      ∧ (∀ b ∈ (processPdfModel ['f'] ([['a', ' ', 'b']].map PageAct.text) 2 100
            (fun _ => true)).flushedBatches.dropLast, b.length = 2)
      ∧ (∀ b ∈ (processPdfModel ['f'] ([['a', ' ', 'b']].map PageAct.text) 2 100
            (fun _ => true)).flushedBatches, 1 ≤ b.length ∧ b.length ≤ 2)
      ∧ ((processPdfModel ['f'] ([['a', ' ', 'b']].map PageAct.text) 2 100
            (fun _ => true)).attempts
          = List.replicate (processPdfModel ['f'] ([['a', ' ', 'b']].map PageAct.text) 2 100
              (fun _ => true)).flushedBatches.length true)
      ∧ (processRecords ['f'] [['a', ' ', 'b']] 100 = []
          → (processPdfModel ['f'] ([['a', ' ', 'b']].map PageAct.text) 2 100
              (fun _ => true)).flushedBatches = [])) :=
  ⟨by decide, batch_flush_policy ['f'] [['a', ' ', 'b']] 2 100 (by decide)⟩

/-- Claim C9: a `KeyboardInterrupt` fired at any point during the directory
walk is propagated out of `process_directory` — the walk stops at the file in
which it fired (`upToFirstKI`) and the interrupt flag is reported exactly
when some processed file hit the interrupt; every ordinary per-file error is
swallowed and the walk continues with the next file (files with `raiseExc`
pages or failing flushes still appear in the processed list). -/
theorem interrupt_aborts_walk (bs cs : Nat) : ∀ (fs : List FileSpec),
    ((processDirectory bs cs fs).1.map Prod.fst = upToFirstKI fs)
    ∧ ((processDirectory bs cs fs).2 = true ↔ ∃ f ∈ fs, PageAct.raiseKI ∈ f.pages) := by
  intro fs
  induction fs with
  | nil => exact ⟨rfl, by simp [processDirectory]⟩
  | cons f rest ih =>
    by_cases hki : PageAct.raiseKI ∈ f.pages
    · have hr : (processPdfModel f.fname f.pages bs cs f.flushOk).raisedKI = true :=
        (processPdfModel_ki_iff _ _ _ _ _).mpr hki
      refine ⟨?_, ?_⟩
      · simp [processDirectory, hr, upToFirstKI, hki]
      · simp only [processDirectory, hr, if_true]
        constructor
        · intro _
          exact ⟨f, by simp, hki⟩
        · intro _
          trivial
    · have hr : (processPdfModel f.fname f.pages bs cs f.flushOk).raisedKI = false := by
        cases hres : (processPdfModel f.fname f.pages bs cs f.flushOk).raisedKI
        · rfl
        · exact absurd ((processPdfModel_ki_iff _ _ _ _ _).mp hres) hki
      refine ⟨?_, ?_⟩
      · simp [processDirectory, hr, upToFirstKI, hki, ih.1]
      · simp only [processDirectory, hr, Bool.false_eq_true, if_false]
        rw [show ((let s := processDirectory bs cs rest;
            ((f.fname, processPdfModel f.fname f.pages bs cs f.flushOk) :: s.1, s.2)).2)
            = (processDirectory bs cs rest).2 from rfl]
        rw [ih.2]
        constructor
        · rintro ⟨g, hg, hgp⟩
          exact ⟨g, List.mem_cons_of_mem _ hg, hgp⟩
        · rintro ⟨g, hg, hgp⟩
          rcases List.mem_cons.mp hg with h1 | h1
          · subst h1; exact absurd hgp hki
          · exact ⟨g, h1, hgp⟩

theorem pyRound2_ge (c : ℚ) (h : 7 / 10 ≤ c) : 70 ≤ pyRound2 (c * 100) := by
  have hfloor : (7000 : ℤ) ≤ ⌊c * 100 * 100⌋ := by
    rw [Int.le_floor]
    push_cast
    linarith
  have hdiv : ∀ I : ℤ, 7000 ≤ I → (70 : ℚ) ≤ (I : ℚ) / 100 := by
    intro I hI
    rw [le_div_iff₀ (by norm_num : (0 : ℚ) < 100)]
    norm_num
    exact_mod_cast hI
  unfold pyRound2
  split
  · exact hdiv _ hfloor
  · split
    · exact hdiv _ (by omega)
    · split
      · exact hdiv _ hfloor
      · exact hdiv _ (by omega)

/-- Claim C4: when the backend honors the requested limit of 5 hits,
`search(q, limit=5, min_score=0.7)` returns at most 5 results; every
returned result arises from a hit with `certainty >= 0.7`, carries
`relevance_score = round(certainty*100, 2)` (hence `>= 70`), and the
returned sequence is a sublist of the backend's result order — filtering
does not reorder. -/
theorem search_limit_and_score (results : List RawResult) (hlen : results.length ≤ 5) :
    (searchModel (Except.ok results) (7 / 10)).length ≤ 5
    ∧ (∀ r ∈ searchModel (Except.ok results) (7 / 10), (70 : ℚ) ≤ r.relevance_score)
    ∧ (∀ r ∈ searchModel (Except.ok results) (7 / 10),
        ∃ x ∈ results, (7 : ℚ) / 10 ≤ x.certainty ∧ r = formatResult x)
    ∧ List.Sublist (searchModel (Except.ok results) (7 / 10)) (results.map formatResult) := by
  refine ⟨?_, ?_, ?_, ?_⟩
  · calc (searchModel (Except.ok results) (7 / 10)).length
        = (results.filter fun r => (7 : ℚ) / 10 ≤ r.certainty).length := by
          simp [searchModel]
      _ ≤ results.length := List.length_filter_le _ _
      _ ≤ 5 := hlen
  · intro r hr
    simp only [searchModel, List.mem_map, List.mem_filter] at hr
    obtain ⟨x, ⟨_, hcert⟩, rfl⟩ := hr
    have hc : (7 : ℚ) / 10 ≤ x.certainty := by
      simpa using hcert
    exact pyRound2_ge x.certainty hc
  · intro r hr
    simp only [searchModel, List.mem_map, List.mem_filter] at hr
    obtain ⟨x, ⟨hxm, hcert⟩, rfl⟩ := hr
    exact ⟨x, hxm, by simpa using hcert, rfl⟩
  · exact List.Sublist.map formatResult (List.filter_sublist results)

/-- Concrete check for `search_limit_and_score` with one backend hit of
certainty 4/5. -/
theorem search_limit_and_score_check :
    ([(⟨['x'], 1, ['f'], 1, 4 / 5⟩ : RawResult)] : List RawResult).length ≤ 5
    ∧ ((searchModel (Except.ok [(⟨['x'], 1, ['f'], 1, 4 / 5⟩ : RawResult)]) (7 / 10)).length ≤ 5
      ∧ (∀ r ∈ searchModel (Except.ok [(⟨['x'], 1, ['f'], 1, 4 / 5⟩ : RawResult)]) (7 / 10),
          (70 : ℚ) ≤ r.relevance_score)
      ∧ (∀ r ∈ searchModel (Except.ok [(⟨['x'], 1, ['f'], 1, 4 / 5⟩ : RawResult)]) (7 / 10),
          ∃ x ∈ [(⟨['x'], 1, ['f'], 1, 4 / 5⟩ : RawResult)],
            (7 : ℚ) / 10 ≤ x.certainty ∧ r = formatResult x)
      ∧ List.Sublist (searchModel (Except.ok [(⟨['x'], 1, ['f'], 1, 4 / 5⟩ : RawResult)]) (7 / 10))
          ([(⟨['x'], 1, ['f'], 1, 4 / 5⟩ : RawResult)].map formatResult)) :=
  ⟨by decide, search_limit_and_score [(⟨['x'], 1, ['f'], 1, 4 / 5⟩ : RawResult)] (by decide)⟩

/-- Claim C5: if the backend call or the response unpacking raises, `search`
returns the empty list and `get_document_count` returns 0 — neither lets the
error reach its caller. -/
theorem search_error_empty (e : String) (minScore : ℚ) :
    searchModel (Except.error e) minScore = [] ∧ getDocumentCount (Except.error e) = 0 :=
  ⟨rfl, rfl⟩

/-- Claim C6 fails on the code: when the query succeeds but the response
lacks the expected `data / Get / Document` shape, `_create_backup` falls off
the end of the function and returns `None` — not a boolean. -/
theorem backup_returns_none_cex :
    ¬ ∃ b : Bool, (createBackup [] [] (Except.ok none) true).1 = some b := by
  decide

/-- Claim C6 (amended): `_create_backup` never raises; it returns `True`
when the snapshot is written, `False` when the backend query or the file
write raises an error, and Python `None` (no boolean) when the query
succeeds but the response lacks the expected shape. -/
theorem backup_return_cases (filename ts : PyStr)
    (queryResult : Except String (Option (List BackupChunk))) (writeOk : Bool) :
    (∀ e, queryResult = Except.error e
      → (createBackup filename ts queryResult writeOk).1 = some false)
    ∧ (queryResult = Except.ok none
      → (createBackup filename ts queryResult writeOk).1 = none)
    ∧ (∀ docs, queryResult = Except.ok (some docs)
      → (createBackup filename ts queryResult writeOk).1 = some writeOk) := by
  refine ⟨?_, ?_, ?_⟩
  · intro e he
    subst he
    rfl
  · intro he
    subst he
    rfl
  · intro docs he
    subst he
    cases writeOk <;> rfl

/-- Concrete check for `backup_return_cases` on all three input shapes. -/
theorem backup_return_cases_check :
    (createBackup [] [] (Except.error "down") true).1 = some false
    ∧ (createBackup [] [] (Except.ok none) false).1 = none
    ∧ (createBackup [] [] (Except.ok (some [])) true).1 = some true :=
  ⟨(backup_return_cases [] [] (Except.error "down") true).1 "down" rfl,
   (backup_return_cases [] [] (Except.ok none) false).2.1 rfl,
   (backup_return_cases [] [] (Except.ok (some [])) true).2.2 [] rfl⟩

/-- Claim C8: every snapshot `_create_backup` actually writes has
`metadata.total_chunks` equal to the number of entries in its `chunks`
array. -/
theorem backup_total_chunks (filename ts : PyStr)
    (queryResult : Except String (Option (List BackupChunk))) (writeOk : Bool)
    (snap : BackupSnapshot)
    (h : (createBackup filename ts queryResult writeOk).2 = some snap) :
    snap.total_chunks = snap.chunks.length := by
  match queryResult with
  | .error e => simp [createBackup] at h
  | .ok none => simp [createBackup] at h
  | .ok (some docs) =>
    cases writeOk with
    | false => simp [createBackup] at h
    | true =>
      simp [createBackup, mkBackupData] at h
      subst h
      rfl

/-- Concrete check for `backup_total_chunks` on a written snapshot with one
chunk. -/
theorem backup_total_chunks_check :
    (createBackup ['f'] ['t'] (Except.ok (some [⟨['c'], 1, ['f'], 1, ['i']⟩])) true).2
      = some (mkBackupData ['f'] ['t'] [⟨['c'], 1, ['f'], 1, ['i']⟩])
    ∧ (mkBackupData ['f'] ['t'] [⟨['c'], 1, ['f'], 1, ['i']⟩]).total_chunks
      = (mkBackupData ['f'] ['t'] [⟨['c'], 1, ['f'], 1, ['i']⟩]).chunks.length :=
  ⟨rfl, backup_total_chunks ['f'] ['t'] (Except.ok (some [⟨['c'], 1, ['f'], 1, ['i']⟩])) true
    (mkBackupData ['f'] ['t'] [⟨['c'], 1, ['f'], 1, ['i']⟩]) rfl⟩
